import Mathlib

set_option maxHeartbeats 1000000
set_option linter.unusedVariables false

/-!
Verification of the KTreeView hierarchy tree and squarified treemap layout
engine (`KTreeView.py`).

Modelling conventions:
* Python strings are modelled as lists of characters (`Str`).
* A `TreeNode`'s insertion-ordered, name-keyed dictionary of children is
  modelled as a list of child nodes; dictionary lookup and update act on the
  first child whose name matches (names are unique in trees the program
  builds, so first-occurrence semantics coincides with dictionary semantics).
* The parent back-reference is modelled by identifying a node with the chain
  of segment names leading to it from the root, so `get_full_path` becomes a
  function of that chain.
* Floating-point arithmetic is modelled exactly, over an arbitrary linear
  ordered field for the squarify partition loop and over `ℝ` (with
  `Real.sqrt` for Python's `** 0.5`) for `update_ratio` itself.
-/

abbrev Str := List Char

/-- Python `s.split(sep)` for a one-character separator: split at every
occurrence of the separator, keeping empty segments; the empty string yields
a single empty segment. -/
def splitChar (sep : Char) : Str → List Str
  | [] => [[]]
  | c :: cs =>
    if c = sep then [] :: splitChar sep cs
    else
      match splitChar sep cs with
      | [] => [[c]]
      | seg :: rest => (c :: seg) :: rest

/-- Python `s.rstrip('\n')`: remove every trailing newline character. -/
def rstripNl (s : Str) : Str := (s.reverse.dropWhile (fun c => c = '\n')).reverse

/-- Python `line.startswith('/')`. -/
def startsWithSlash : Str → Bool
  | '/' :: _ => true
  | _ => false

/-- `TreeNode`: a cell of the hierarchy.  The `ratio` field of the Python
class is mutable state written by `update_ratio`; it is modelled as the
output association list of `updateRatio` rather than as a field. -/
inductive TreeNode where
  | node (name : Str) (children : List TreeNode)

def TreeNode.name : TreeNode → Str
  | .node n _ => n

def TreeNode.children : TreeNode → List TreeNode
  | .node _ cs => cs

mutual

/-- `TreeNode.get_children_count`: `len(self.children)` plus the recursive
`get_children_count` of every child, i.e. the number of strict descendants. -/
def getChildrenCount : TreeNode → Nat
  | .node _ cs => cs.length + sumChildrenCounts cs

/-- The accumulation `for child in self.children.values(): count += child.get_children_count()`. -/
def sumChildrenCounts : List TreeNode → Nat
  | [] => 0
  | c :: cs => getChildrenCount c + sumChildrenCounts cs

end

/-- `TreeNode.get_size`: `max(1, self.get_children_count())`. -/
def getSize (t : TreeNode) : Nat := max 1 (getChildrenCount t)

mutual

/-- Number of nodes of the subtree rooted at `t`, `t` itself included.  This
is the independent count used to state the spec's
`count_of_strict_descendants(node)` as `subtreeCount node - 1`. -/
def subtreeCount : TreeNode → Nat
  | .node _ cs => 1 + subtreeCountList cs

/-- Total number of nodes of a forest. -/
def subtreeCountList : List TreeNode → Nat
  | [] => 0
  | c :: cs => subtreeCount c + subtreeCountList cs

end

mutual

theorem subtreeCount_eq_getChildrenCount :
    ∀ t : TreeNode, subtreeCount t = getChildrenCount t + 1
  | .node n cs => by
    rw [subtreeCount, getChildrenCount, subtreeCountList_eq_sumChildrenCounts cs]
    omega

theorem subtreeCountList_eq_sumChildrenCounts :
    ∀ cs : List TreeNode, subtreeCountList cs = sumChildrenCounts cs + cs.length
  | [] => by rw [subtreeCountList, sumChildrenCounts]; rfl
  | c :: cs => by
    rw [subtreeCountList, sumChildrenCounts, subtreeCount_eq_getChildrenCount c,
      subtreeCountList_eq_sumChildrenCounts cs, List.length_cons]
    omega

end

/-- Claim C2: for every node, `get_size(node)` equals
`max(1, number of strict descendants of node)`, and `get_size` returns `1`
on every leaf (node with no children). -/
theorem c2_get_size_spec (t : TreeNode) :
    getSize t = max 1 (subtreeCount t - 1) ∧ (t.children = [] → getSize t = 1) := by
  constructor
  · rw [getSize, subtreeCount_eq_getChildrenCount t, Nat.add_sub_cancel]
  · intro h
    cases t with
    | node n cs =>
      simp only [TreeNode.children] at h
      subst h
      rw [getSize, getChildrenCount, sumChildrenCounts]
      rfl

/-- Dictionary lookup `current_node.children[part]` / the test
`part in current_node.children`: the first child with the given name. -/
def findChild : List TreeNode → Str → Option TreeNode
  | [], _ => none
  | c :: cs, p => if c.name = p then some c else findChild cs p

mutual

/-- The per-segment loop of `add_hierarchy_to_tree`: strip trailing newlines
from the segment, descend into the existing child with that name — creating
it first when absent — and continue with the remaining segments. -/
def insertParts : TreeNode → List Str → TreeNode
  | t, [] => t
  | .node n cs, p :: ps => .node n (insertChildren cs (rstripNl p) ps)
termination_by t parts => (parts.length, 1, 0)

/-- One dictionary step of the loop: update the (first) child named `p` with
the remaining segments, appending a fresh child at the end (Python dict
insertion order) when no child has that name. -/
def insertChildren : List TreeNode → Str → List Str → List TreeNode
  | [], p, ps => [insertParts (.node p []) ps]
  | c :: cs, p, ps =>
    if c.name = p then insertParts c ps :: cs
    else c :: insertChildren cs p ps
termination_by cs p ps => (ps.length + 1, 0, cs.length)

end

/-- `add_hierarchy_to_tree(node, hierarchy)`: split the line on `/` and walk
`parts[1:]`. -/
def addHierarchyToTree (t : TreeNode) (hierarchy : Str) : TreeNode :=
  insertParts t ((splitChar '/' hierarchy).tail)

/-- One iteration of the line loop of `build_tree_from_text`: lines that do
not start with `/` are skipped (`continue`), the others are added to the
tree.  (The progress-bar calls touch only the display.) -/
def processLine (t : TreeNode) (line : Str) : TreeNode :=
  if startsWithSlash line then addHierarchyToTree t line else t

/-- The line loop of `build_tree_from_text` over an already-read list of
lines. -/
def buildLines (t : TreeNode) : List Str → TreeNode
  | [] => t
  | l :: ls => buildLines (processLine t l) ls

/-- `build_tree_from_text`: start from a root named by the empty string and
process every line of the file. -/
def buildTreeFromText (lines : List Str) : TreeNode :=
  buildLines (.node [] []) lines

/-- The node reached from `t` by following a chain of child names, when every
segment of the chain resolves. -/
def nodeAtLoc : TreeNode → List Str → Option TreeNode
  | t, [] => some t
  | t, p :: ps =>
    match findChild t.children p with
    | some c => nodeAtLoc c ps
    | none => none

/-- The path-resolution loop of `display_hierarchy`:
`for part in parts[1:]: if part in current_node.children: descend else break`
— on the first missing segment the walk stops and the node reached so far is
used. -/
def resolveLoop : TreeNode → List Str → TreeNode
  | t, [] => t
  | t, p :: ps =>
    match findChild t.children p with
    | some c => resolveLoop c ps
    | none => t

/-- The node whose subtree `display_hierarchy(node, hierarchy)` draws:
`hierarchy` is split on `/` and the loop walks `parts[1:]` from `node`. -/
def displayTarget (t : TreeNode) (hierarchy : Str) : TreeNode :=
  resolveLoop t ((splitChar '/' hierarchy).tail)

/-- `TreeNode.get_full_path`, phrased on the chain of segment names from the
root to a node (the root contributes no segment): the empty chain (the root
itself, `parent == None`) gives the empty string, and otherwise the result is
the parent's full path followed by `'/'` and the node's name.
`getFullPathRev` recurses along the parent chain, nearest ancestor first. -/
def getFullPathRev : List Str → Str
  | [] => []
  | n :: ps => getFullPathRev ps ++ '/' :: n

/-- `get_full_path` of the node whose chain of names from the root is `loc`. -/
def getFullPath (loc : List Str) : Str := getFullPathRev loc.reverse

/-- The slash-delimited path string `/seg1/.../segN` built from a list of
segments — the form of the input lines the spec's round-trip property is
about. -/
def pathString : List Str → Str
  | [] => []
  | s :: rest => '/' :: (s ++ pathString rest)

mutual

/-- `P` holds for the name of every strict descendant of `t`. -/
def allDescNames (P : Str → Prop) : TreeNode → Prop
  | .node _ cs => allDescNamesList P cs

/-- `P` holds for every node name occurring in the forest `cs`. -/
def allDescNamesList (P : Str → Prop) : List TreeNode → Prop
  | [] => True
  | c :: cs => P c.name ∧ allDescNames P c ∧ allDescNamesList P cs

end

/-- Witness for C2 at a concrete leaf and a concrete two-level tree. -/
theorem c2_get_size_spec_witness :
    (getSize (.node [] []) = max 1 (subtreeCount (.node [] []) - 1) ∧
      ((TreeNode.node [] []).children = [] → getSize (.node [] []) = 1)) ∧
    getSize (.node [] [.node ['A'] [], .node ['B'] []]) =
      max 1 (subtreeCount (.node [] [.node ['A'] [], .node ['B'] []]) - 1) :=
  ⟨c2_get_size_spec (.node [] []),
    (c2_get_size_spec (.node [] [.node ['A'] [], .node ['B'] []])).1⟩

/-- Claim C9: a line that does not start with `/` leaves the tree unchanged —
one loop iteration is the identity on the tree, and deleting such a line from
the input changes nothing about the built tree.  `processLine`/`buildLines`
are total functions, so no error is raised on such lines. -/
theorem c9_malformed_line_skipped (t : TreeNode) (l : Str) (pre post : List Str)
    (h : startsWithSlash l = false) :
    processLine t l = t ∧ buildLines t (pre ++ l :: post) = buildLines t (pre ++ post) := by
  have hstep : ∀ u : TreeNode, processLine u l = u := by
    intro u
    rw [processLine, h]
    simp
  refine ⟨hstep t, ?_⟩
  induction pre generalizing t with
  | nil => rw [List.nil_append, List.nil_append, buildLines, hstep t]
  | cons q qs ih => rw [List.cons_append, List.cons_append, buildLines, buildLines, ih]

/-- Witness for C9: a comment line `#x` between two path lines is skipped. -/
theorem c9_malformed_line_skipped_witness :
    startsWithSlash ['#', 'x'] = false ∧
    processLine (.node [] []) ['#', 'x'] = .node [] [] ∧
    buildLines (.node [] []) ([['/', 'A']] ++ ['#', 'x'] :: [['/', 'B']]) =
      buildLines (.node [] []) ([['/', 'A']] ++ [['/', 'B']]) :=
  ⟨rfl, (c9_malformed_line_skipped (.node [] []) ['#', 'x'] [['/', 'A']] [['/', 'B']] rfl).1,
    (c9_malformed_line_skipped (.node [] []) ['#', 'x'] [['/', 'A']] [['/', 'B']] rfl).2⟩

theorem resolveLoop_stops (t n : TreeNode) (pre : List Str) (bad : Str) (rest : List Str)
    (hwalk : nodeAtLoc t pre = some n) (hmiss : findChild n.children bad = none) :
    resolveLoop t (pre ++ bad :: rest) = n := by
  induction pre generalizing t with
  | nil =>
    rw [nodeAtLoc] at hwalk
    cases hwalk
    rw [List.nil_append, resolveLoop, hmiss]
  | cons p ps ih =>
    rw [nodeAtLoc] at hwalk
    rw [List.cons_append, resolveLoop]
    cases hfc : findChild t.children p with
    | some c =>
      rw [hfc] at hwalk
      exact ih c hwalk
    | none => rw [hfc] at hwalk; exact absurd hwalk (by simp)

/-- Claim C8: when the requested hierarchy path has a segment that does not
exist under the node reached so far, `display_hierarchy`'s walk stops at the
last valid ancestor: it renders the subtree of the deepest resolved node `n`,
and being a total function it raises no error. -/
theorem c8_display_stops_at_last_resolved (t n : TreeNode) (hierarchy : Str)
    (pre : List Str) (bad : Str) (rest : List Str)
    (hsplit : (splitChar '/' hierarchy).tail = pre ++ bad :: rest)
    (hwalk : nodeAtLoc t pre = some n) (hmiss : findChild n.children bad = none) :
    displayTarget t hierarchy = n := by
  rw [displayTarget, hsplit]
  exact resolveLoop_stops t n pre bad rest hwalk hmiss

/-- Witness for C8: displaying `/A/X` on a tree whose root has the single
child `A` (a leaf) resolves to the node `A`. -/
theorem c8_display_stops_at_last_resolved_witness :
    (splitChar '/' ['/', 'A', '/', 'X']).tail = [['A']] ++ ['X'] :: [] ∧
    nodeAtLoc (.node [] [.node ['A'] []]) [['A']] = some (.node ['A'] []) ∧
    findChild (TreeNode.node ['A'] []).children ['X'] = none ∧
    displayTarget (.node [] [.node ['A'] []]) ['/', 'A', '/', 'X'] = .node ['A'] [] :=
  ⟨rfl, rfl, rfl,
    c8_display_stops_at_last_resolved (.node [] [.node ['A'] []]) (.node ['A'] [])
      ['/', 'A', '/', 'X'] [['A']] ['X'] [] rfl rfl rfl⟩

theorem splitChar_not_mem (sep : Char) :
    ∀ (s : Str) (seg : Str), seg ∈ splitChar sep s → sep ∉ seg := by
  intro s
  induction s with
  | nil =>
    intro seg hseg
    rw [splitChar] at hseg
    simp only [List.mem_singleton] at hseg
    subst hseg
    simp
  | cons c cs ih =>
    intro seg hseg
    rw [splitChar] at hseg
    by_cases hc : c = sep
    · rw [if_pos hc] at hseg
      rcases List.mem_cons.mp hseg with h | h
      · subst h; simp
      · exact ih seg h
    · rw [if_neg hc] at hseg
      rcases hsc : splitChar sep cs with _ | ⟨seg0, rest⟩
      · rw [hsc] at hseg
        simp only [List.mem_singleton] at hseg
        subst hseg
        simp only [List.mem_singleton]
        exact fun h => hc h.symm
      · rw [hsc] at hseg
        rcases List.mem_cons.mp hseg with h | h
        · subst h
          intro hmem
          rcases List.mem_cons.mp hmem with h | h
          · exact hc h.symm
          · exact ih seg0 (hsc ▸ List.mem_cons_self seg0 rest) h
        · exact ih seg (hsc ▸ List.mem_cons_of_mem seg0 h)

theorem rstripNl_subset (s : Str) (c : Char) (h : c ∈ rstripNl s) : c ∈ s := by
  rw [rstripNl, List.mem_reverse] at h
  rw [← List.mem_reverse]
  exact (List.dropWhile_sublist _).mem h

theorem rstripNl_eq_self (s : Str) (h : ('\n' : Char) ∉ s) : rstripNl s = s := by
  rw [rstripNl]
  have hdw : s.reverse.dropWhile (fun c => c = '\n') = s.reverse := by
    cases hr : s.reverse with
    | nil => rfl
    | cons c rest =>
      rw [List.dropWhile_cons]
      have hc : c ∈ s := by rw [← List.mem_reverse, hr]; simp
      have hne : ¬(c = '\n') := fun he => h (he ▸ hc)
      simp [hne]
  rw [hdw, List.reverse_reverse]

theorem insertParts_name : ∀ (t : TreeNode) (ps : List Str), (insertParts t ps).name = t.name
  | t, [] => by simp only [insertParts]
  | .node n cs, p :: ps => by simp only [insertParts, TreeNode.name]

mutual

theorem allDescNames_insertParts (P : Str → Prop) :
    ∀ (t : TreeNode) (parts : List Str), allDescNames P t →
      (∀ p ∈ parts, P (rstripNl p)) → allDescNames P (insertParts t parts)
  | t, [], ht, hp => by simpa only [insertParts] using ht
  | .node n cs, p :: ps, ht, hp => by
    simp only [insertParts, allDescNames] at *
    exact allDescNamesList_insertChildren P cs (rstripNl p) ps ht (hp p (by simp))
      (fun q hq => hp q (by simp [hq]))
termination_by t parts => (parts.length, 1, 0)

theorem allDescNamesList_insertChildren (P : Str → Prop) :
    ∀ (cs : List TreeNode) (p : Str) (ps : List Str), allDescNamesList P cs → P p →
      (∀ q ∈ ps, P (rstripNl q)) → allDescNamesList P (insertChildren cs p ps)
  | [], p, ps, hcs, hP, hps => by
    simp only [insertChildren, allDescNamesList]
    refine ⟨?_, ?_, trivial⟩
    · rw [insertParts_name]; exact hP
    · exact allDescNames_insertParts P (.node p []) ps
        (by simp only [allDescNames, allDescNamesList]) hps
  | c :: cs, p, ps, hcs, hP, hps => by
    simp only [insertChildren]
    simp only [allDescNamesList] at hcs
    by_cases h : c.name = p
    · rw [if_pos h]
      simp only [allDescNamesList]
      exact ⟨by rw [insertParts_name]; exact hcs.1,
        allDescNames_insertParts P c ps hcs.2.1 hps, hcs.2.2⟩
    · rw [if_neg h]
      simp only [allDescNamesList]
      exact ⟨hcs.1, hcs.2.1, allDescNamesList_insertChildren P cs p ps hcs.2.2 hP hps⟩
termination_by cs p ps => (ps.length + 1, 0, cs.length)

end

theorem allDescNames_buildLines (P : Str → Prop) :
    ∀ (lines : List Str) (t : TreeNode), allDescNames P t →
      (∀ l ∈ lines, startsWithSlash l = true →
        ∀ p ∈ (splitChar '/' l).tail, P (rstripNl p)) →
      allDescNames P (buildLines t lines)
  | [], t, ht, _ => by simpa only [buildLines] using ht
  | l :: ls, t, ht, hl => by
    simp only [buildLines]
    apply allDescNames_buildLines P ls
    · rw [processLine]
      by_cases h : startsWithSlash l
      · rw [if_pos h, addHierarchyToTree]
        exact allDescNames_insertParts P t _ ht (hl l (by simp) h)
      · rwa [if_neg h]
    · exact fun l' hl' => hl l' (List.mem_cons_of_mem l hl')

/-- Claim C6, amended: in a tree built from text, every non-root node's name
contains no `/` character; and provided every processed line's segments after
the leading slash are non-empty once trailing newlines are stripped, every
non-root node's name is also non-empty.  (As stated the claim is false: lines
such as `/` alone, or paths with a trailing slash, create nodes whose name is
the empty string — see the counterexample.) -/
theorem c6_names_no_slash (lines : List Str) :
    allDescNames (fun nm => ('/' : Char) ∉ nm) (buildTreeFromText lines) ∧
    ((∀ l ∈ lines, startsWithSlash l = true →
        ∀ p ∈ (splitChar '/' l).tail, rstripNl p ≠ []) →
      allDescNames (fun nm => nm ≠ []) (buildTreeFromText lines)) := by
  constructor
  · apply allDescNames_buildLines
    · simp only [allDescNames, allDescNamesList]
    · intro l hl hstart p hp hmem
      exact splitChar_not_mem '/' l p (List.mem_of_mem_tail hp) (rstripNl_subset _ _ hmem)
  · intro hgood
    apply allDescNames_buildLines
    · simp only [allDescNames, allDescNamesList]
    · exact hgood

/-- Witness for the amended C6 at the concrete input file `"/A/B\n"`. -/
theorem c6_names_no_slash_witness :
    allDescNames (fun nm => ('/' : Char) ∉ nm)
      (buildTreeFromText [['/', 'A', '/', 'B', '\n']]) ∧
    allDescNames (fun nm => nm ≠ []) (buildTreeFromText [['/', 'A', '/', 'B', '\n']]) :=
  ⟨(c6_names_no_slash [['/', 'A', '/', 'B', '\n']]).1,
    (c6_names_no_slash [['/', 'A', '/', 'B', '\n']]).2 (by decide)⟩

/-- Counterexample to C6 as stated: processing the single line `/` creates a
non-root node (a child of the root) whose name is the empty string. -/
theorem c6_counterexample_empty_name :
    (buildTreeFromText [['/']]).children.map TreeNode.name = [[]] := by
  simp [buildTreeFromText, buildLines, processLine, startsWithSlash, addHierarchyToTree,
    splitChar, insertParts, insertChildren, rstripNl, TreeNode.children, TreeNode.name]

theorem splitChar_no_sep (sep : Char) :
    ∀ s : Str, sep ∉ s → splitChar sep s = [s] := by
  intro s
  induction s with
  | nil => intro _; rfl
  | cons c cs ih =>
    intro h
    rw [splitChar, if_neg (fun hc => h (by simp [hc])),
      ih (fun hm => h (List.mem_cons_of_mem c hm))]

theorem splitChar_append_sep (sep : Char) :
    ∀ (s t : Str), sep ∉ s → splitChar sep (s ++ sep :: t) = s :: splitChar sep t := by
  intro s
  induction s with
  | nil => intro t _; rw [List.nil_append, splitChar, if_pos rfl]
  | cons c cs ih =>
    intro t h
    rw [List.cons_append, splitChar, if_neg (fun hc => h (by simp [hc])),
      ih t (fun hm => h (List.mem_cons_of_mem c hm))]

theorem splitChar_pathString :
    ∀ segs : List Str, segs ≠ [] → (∀ s ∈ segs, ('/' : Char) ∉ s) →
      splitChar '/' (pathString segs) = [] :: segs := by
  intro segs
  induction segs with
  | nil => intro h; exact absurd rfl h
  | cons s rest ih =>
    intro _ hs
    rw [pathString, splitChar, if_pos rfl]
    cases rest with
    | nil =>
      rw [pathString, List.append_nil, splitChar_no_sep '/' s (hs s (by simp))]
    | cons r rest' =>
      have hr : splitChar '/' (pathString (r :: rest')) = [] :: r :: rest' :=
        ih (by simp) (fun q hq => hs q (List.mem_cons_of_mem s hq))
      rw [pathString, splitChar, if_pos rfl, List.cons.injEq] at hr
      rw [pathString, splitChar_append_sep '/' s _ (hs s (by simp)), hr.2]

theorem findChild_insertChildren :
    ∀ (cs : List TreeNode) (p : Str) (ps : List Str),
      ∃ c0 : TreeNode, findChild (insertChildren cs p ps) p = some (insertParts c0 ps) := by
  intro cs p ps
  induction cs with
  | nil =>
    refine ⟨.node p [], ?_⟩
    simp only [insertChildren, findChild]
    rw [if_pos]
    rw [insertParts_name, TreeNode.name]
  | cons c cs ih =>
    by_cases h : c.name = p
    · refine ⟨c, ?_⟩
      simp only [insertChildren]
      rw [if_pos h, findChild, if_pos (by rw [insertParts_name]; exact h)]
    · obtain ⟨c0, hc0⟩ := ih
      refine ⟨c0, ?_⟩
      simp only [insertChildren]
      rw [if_neg h, findChild, if_neg h, hc0]

theorem nodeAtLoc_insertParts :
    ∀ (segs : List Str) (t : TreeNode), (∀ s ∈ segs, rstripNl s = s) →
      ∃ n : TreeNode, nodeAtLoc (insertParts t segs) segs = some n := by
  intro segs
  induction segs with
  | nil => intro t _; exact ⟨t, by simp only [insertParts, nodeAtLoc]⟩
  | cons p ps ih =>
    intro t hstrip
    cases t with
    | node n cs =>
      simp only [insertParts]
      rw [hstrip p (by simp)]
      obtain ⟨c0, hc0⟩ := findChild_insertChildren cs p ps
      obtain ⟨m, hm⟩ := ih c0 (fun s hs => hstrip s (List.mem_cons_of_mem p hs))
      refine ⟨m, ?_⟩
      rw [nodeAtLoc, TreeNode.children, hc0]
      exact hm

theorem pathString_concat :
    ∀ (l : List Str) (a : Str), pathString (l ++ [a]) = pathString l ++ '/' :: a := by
  intro l a
  induction l with
  | nil => simp [pathString]
  | cons s rest ih => rw [List.cons_append, pathString, pathString, ih, List.cons_append,
      List.append_assoc]

theorem getFullPath_eq_pathString (segs : List Str) : getFullPath segs = pathString segs := by
  rw [getFullPath]
  induction segs using List.reverseRecOn with
  | nil => rfl
  | append_singleton l a ih =>
    rw [List.reverse_append, List.reverse_singleton, List.singleton_append, getFullPathRev,
      ih, pathString_concat]

/-- Claim C7: inserting the slash-delimited path of non-empty, slash-free,
newline-free segments `segs` into any tree creates a node at the chain
`segs`, and `get_full_path` of that node — reconstruction by walking the
parent references — returns exactly the inserted path string; the root's
full path is the empty string.  In particular, inserting `/A/B/C` and taking
`get_full_path` of the node created for `C` gives back `/A/B/C`. -/
theorem c7_full_path_round_trip (t : TreeNode) (segs : List Str) (hne : segs ≠ [])
    (hseg : ∀ s ∈ segs, s ≠ [] ∧ ('/' : Char) ∉ s ∧ ('\n' : Char) ∉ s) :
    (∃ n : TreeNode, nodeAtLoc (addHierarchyToTree t (pathString segs)) segs = some n) ∧
    getFullPath segs = pathString segs ∧ getFullPath [] = [] := by
  refine ⟨?_, getFullPath_eq_pathString segs, rfl⟩
  rw [addHierarchyToTree, splitChar_pathString segs hne (fun s hs => (hseg s hs).2.1),
    List.tail_cons]
  exact nodeAtLoc_insertParts segs t (fun s hs => rstripNl_eq_self s (hseg s hs).2.2)

/-- Witness for C7 at the concrete path `/A/B/C` inserted into an empty root:
the node created for the final segment exists and its full path is exactly
`/A/B/C`. -/
theorem c7_full_path_round_trip_witness :
    ([['A'], ['B'], ['C']] : List Str) ≠ [] ∧
    nodeAtLoc (addHierarchyToTree (.node [] []) (pathString [['A'], ['B'], ['C']]))
      [['A'], ['B'], ['C']] = some (.node ['C'] []) ∧
    getFullPath [['A'], ['B'], ['C']] = ['/', 'A', '/', 'B', '/', 'C'] ∧
    getFullPath [] = [] := by
  have h := c7_full_path_round_trip (.node [] []) [['A'], ['B'], ['C']]
    (by decide) (by decide)
  refine ⟨by decide, ?_, h.2.1.trans (by decide), h.2.2⟩
  simp [addHierarchyToTree, pathString, splitChar, insertParts, insertChildren, rstripNl,
    nodeAtLoc, findChild, TreeNode.children, TreeNode.name]

/-- The `PositionRatio` namedtuple: position and size of a cell relative to
its parent's frame. -/
structure PositionRatio (α : Type) where
  x : α
  y : α
  width : α
  height : α

/-- `sum([cell.get_size() for cell in l])`. -/
def sumSizes (l : List TreeNode) : Nat := (l.map getSize).sum

variable {α : Type} [LinearOrderedField α]

/-- The inner accumulation loop of `update_ratio`: keep popping cells into
the partition buffer while the worst-case aspect value of the strip stays
below `2` and cells remain.  The worklist is kept in pop order (Python pops
from the end of the ascending-sorted list, so the head here is the next cell
popped); the buffer is kept most-recent-first (Python appends at the end and
reads the just-appended cell as `partition_buffer[-1]`).  Returns the final
buffer, the remaining worklist, and the final value of
`smallest_partition_block_aspect_ratio`. -/
def fillBuffer (L : α) (rho : α) (wl : List TreeNode) (buf : List TreeNode) :
    List TreeNode × List TreeNode × α :=
  if rho < 2 then
    match wl with
    | [] => (buf, [], rho)
    | c :: rest =>
      let buf' := c :: buf
      let B : α := (sumSizes buf' : α)
      let spw := B / L
      let spl := L * (getSize c : α) / B
      fillBuffer L (spw / spl) rest buf'
  else (buf, wl, rho)
termination_by wl.length
decreasing_by simp

theorem fillBuffer_stop (L rho : α) (wl buf : List TreeNode) (h : ¬rho < 2) :
    fillBuffer L rho wl buf = (buf, wl, rho) := by
  rw [fillBuffer.eq_def, if_neg h]

theorem fillBuffer_nil (L rho : α) (buf : List TreeNode) (h : rho < 2) :
    fillBuffer L rho [] buf = (buf, [], rho) := by
  rw [fillBuffer.eq_def, if_pos h]

theorem fillBuffer_cons (L rho : α) (c : TreeNode) (rest buf : List TreeNode) (h : rho < 2) :
    fillBuffer L rho (c :: rest) buf =
      fillBuffer L
        (((sumSizes (c :: buf) : α) / L) / (L * (getSize c : α) / (sumSizes (c :: buf) : α)))
        rest (c :: buf) := by
  rw [fillBuffer.eq_def, if_pos h]

/-- The `is_wider` branch of the strip-distribution loop of `update_ratio`:
the buffer's cells (in append order) are stacked downwards from the running
offset `cy`; each gets the strip's width `gw` and a height proportional to
its size. -/
def stripWider (Btot ch H gx gw : α) : α → List TreeNode → List (TreeNode × PositionRatio α)
  | _, [] => []
  | cy, c :: cs =>
    let crh := (getSize c : α) / Btot
    let gh := crh * ch / H
    (c, ⟨gx, cy, gw, gh⟩) :: stripWider Btot ch H gx gw (cy + gh) cs

/-- The `else` (taller) branch of the strip-distribution loop of
`update_ratio`: cells are laid out rightwards from the running offset `cx`;
each gets the strip's height `gh` and a width proportional to its size. -/
def stripTaller (Btot cw W gy gh : α) : α → List TreeNode → List (TreeNode × PositionRatio α)
  | _, [] => []
  | cx, c :: cs =>
    let crw := (getSize c : α) / Btot
    let gw := crw * cw / W
    (c, ⟨cx, gy, gw, gh⟩) :: stripTaller Btot cw W gy gh (cx + gw) cs

/-- One finished partition strip of `update_ratio`: area, thickness, the
per-cell `PositionRatio` assignments of the chosen orientation branch, and
the updated global offsets and current dimensions
(`global_ratio_x += ...; current_width -= partition_width`, or the symmetric
taller case). -/
def processStrip (W H gx gy cw ch L : α) (buf2 : List TreeNode) :
    List (TreeNode × PositionRatio α) × α × α × α × α :=
  let Btot : α := (sumSizes buf2 : α)
  let P := Btot / L
  if ch < cw then
    let gw := P / W
    (stripWider Btot ch H gx gw gy buf2.reverse, gx + gw, gy, cw - P, ch)
  else
    let gh := P / H
    (stripTaller Btot cw W gy gh gx buf2.reverse, gx, gy + gh, cw, ch - P)

theorem fillBuffer_split (L : α) :
    ∀ (wl : List TreeNode) (rho : α) (buf : List TreeNode),
      ((fillBuffer L rho wl buf).1).reverse ++ (fillBuffer L rho wl buf).2.1 =
        buf.reverse ++ wl := by
  intro wl
  induction wl with
  | nil =>
    intro rho buf
    by_cases h : rho < 2
    · rw [fillBuffer_nil L rho buf h]
    · rw [fillBuffer_stop L rho [] buf h]
  | cons c rest ih =>
    intro rho buf
    by_cases h : rho < 2
    · rw [fillBuffer_cons L rho c rest buf h, ih]
      simp
    · rw [fillBuffer_stop L rho (c :: rest) buf h]

theorem fillBuffer_ne_nil (L : α) :
    ∀ (wl : List TreeNode) (rho : α) (buf : List TreeNode), buf ≠ [] ∨ (rho < 2 ∧ wl ≠ []) →
      (fillBuffer L rho wl buf).1 ≠ [] := by
  intro wl
  induction wl with
  | nil =>
    intro rho buf h
    rcases h with h | ⟨_, h2⟩
    · by_cases hr : rho < 2
      · rw [fillBuffer_nil L rho buf hr]; exact h
      · rw [fillBuffer_stop L rho [] buf hr]; exact h
    · exact absurd rfl h2
  | cons c rest ih =>
    intro rho buf h
    by_cases hr : rho < 2
    · rw [fillBuffer_cons L rho c rest buf hr]
      exact ih _ _ (Or.inl (by simp))
    · rw [fillBuffer_stop L rho (c :: rest) buf hr]
      rcases h with h | ⟨h1, _⟩
      · exact h
      · exact absurd h1 hr

theorem fillBuffer_length {L : α} {wl buf1 rest : List TreeNode} {rho0 rho : α}
    (hfb : fillBuffer L rho0 wl [] = (buf1, rest, rho)) :
    buf1.length + rest.length = wl.length := by
  have h := fillBuffer_split L wl rho0 []
  rw [hfb] at h
  have hlen := congrArg List.length h
  simpa using hlen

/-- The outer `while len(children_to_update) > 0` partition loop of
`update_ratio`.  Returns the `(cell, PositionRatio)` assignments in
assignment order together with a flag recording whether the
`[WARNING] Empty partition buffer` branch was taken (in which case the
remaining cells are dropped, as in the source).  The enqueueing of each cell
onto `ratio_queue` for its own later layout pass drives the host's
recursion and does not affect the assignments of this call. -/
def squarifyLoop (W H : α) (wl : List TreeNode) (gx gy cw ch : α) :
    List (TreeNode × PositionRatio α) × Bool :=
  match wl with
  | [] => ([], false)
  | w0 :: wl' =>
    let L := if ch < cw then ch else cw
    match hfb : fillBuffer L 0 (w0 :: wl') [] with
    | ([], _, _) => ([], true)
    | (b :: bs, rest, _) =>
      let buf2 := if bs.isEmpty then b :: bs else bs
      let rest2 := if bs.isEmpty then rest else b :: rest
      let s := processStrip W H gx gy cw ch L buf2
      let prev := squarifyLoop W H rest2 s.2.1 s.2.2.1 s.2.2.2.1 s.2.2.2.2
      (s.1 ++ prev.1, prev.2)
termination_by wl.length
decreasing_by
  have hlen := fillBuffer_length hfb
  simp only [List.length_cons] at hlen ⊢
  split
  · omega
  · rename_i hbs
    have hne : bs ≠ [] := by simpa using hbs
    have hpos : 0 < bs.length := List.length_pos.mpr hne
    simp only [List.length_cons]
    omega

theorem squarifyLoop_cons_unfold (W H gx gy cw ch : α) (w0 : TreeNode) (wl' : List TreeNode)
    (b : TreeNode) (bs rest : List TreeNode) (rho : α)
    (hfb : fillBuffer (if ch < cw then ch else cw) 0 (w0 :: wl') [] = (b :: bs, rest, rho)) :
    squarifyLoop W H (w0 :: wl') gx gy cw ch =
      (let L := if ch < cw then ch else cw
       let buf2 := if bs.isEmpty then b :: bs else bs
       let rest2 := if bs.isEmpty then rest else b :: rest
       let s := processStrip W H gx gy cw ch L buf2
       let prev := squarifyLoop W H rest2 s.2.1 s.2.2.1 s.2.2.2.1 s.2.2.2.2
       (s.1 ++ prev.1, prev.2)) := by
  conv_lhs => rw [squarifyLoop.eq_def]
  have main : ∀ (L0 : α), L0 = (if ch < cw then ch else cw) →
      (match hfb : fillBuffer L0 0 (w0 :: wl') [] with
        | ([], _, _) => (([] : List (TreeNode × PositionRatio α)), true)
        | (b :: bs, rest, _) =>
          let buf2 := if bs.isEmpty then b :: bs else bs
          let rest2 := if bs.isEmpty then rest else b :: rest
          let s := processStrip W H gx gy cw ch L0 buf2
          let prev := squarifyLoop W H rest2 s.2.1 s.2.2.1 s.2.2.2.1 s.2.2.2.2
          (s.1 ++ prev.1, prev.2)) =
      (let buf2 := if bs.isEmpty then b :: bs else bs
       let rest2 := if bs.isEmpty then rest else b :: rest
       let s := processStrip W H gx gy cw ch L0 buf2
       let prev := squarifyLoop W H rest2 s.2.1 s.2.2.1 s.2.2.2.1 s.2.2.2.2
       (s.1 ++ prev.1, prev.2)) := by
    intro L0 hL0
    rw [hL0] at *
    split
    · rename_i heq2
      rw [hfb] at heq2
      simp at heq2
    · rename_i heq2
      rw [hfb] at heq2
      injection heq2 with h1 h2
      injection h2 with h2 h3
      injection h1 with h4 h5
      subst h2
      subst h4
      subst h5
      rfl
  exact main _ rfl

/-- `adjust_rectangle_dimensions`: rescale `(width, height)` keeping the
aspect quotient `width / height` so the area becomes `new_area`
(`new_width = (new_area * aspect) ** 0.5`). -/
noncomputable def adjustRectangleDimensions (width height newArea : ℝ) : ℝ × ℝ :=
  let aspect := width / height
  let newWidth := Real.sqrt (newArea * aspect)
  let newHeight := newWidth / aspect
  (newWidth, newHeight)

/-- `children_to_update`: the node's children sorted ascending (stably) by
`get_children_count`; Python then pops from the end of this list, i.e. reads
it in descending order. -/
def sortedChildren (t : TreeNode) : List TreeNode :=
  t.children.mergeSort (fun a b => getChildrenCount a ≤ getChildrenCount b)

/-- `update_ratio(node, reference_width, reference_height)`: sort the
children, rescale the reference rectangle to the children's total size, and
run the partition loop.  The worklist is reversed because the Lean loop pops
from the head where Python pops from the end of the ascending list.  Returns
the `(cell, PositionRatio)` assignments together with the
empty-partition-buffer warning flag. -/
noncomputable def updateRatio (t : TreeNode) (referenceWidth referenceHeight : ℝ) :
    List (TreeNode × PositionRatio ℝ) × Bool :=
  let childrenToUpdate := sortedChildren t
  let totalSizeOfChildren : ℝ := (sumSizes childrenToUpdate : ℝ)
  let wh := adjustRectangleDimensions referenceWidth referenceHeight totalSizeOfChildren
  squarifyLoop wh.1 wh.2 childrenToUpdate.reverse 0 0 wh.1 wh.2

/-- A `PositionRatio` lies inside the unit reference frame: all four
components are in `[0, 1]` and the cell does not cross the right or bottom
border. -/
def ratioWithin (r : PositionRatio α) : Prop :=
  0 ≤ r.x ∧ 0 ≤ r.y ∧ 0 ≤ r.width ∧ 0 ≤ r.height ∧
    r.x + r.width ≤ 1 ∧ r.y + r.height ≤ 1

/-- Total relative area `width * height` of a list of assignments. -/
def areaSum (out : List (TreeNode × PositionRatio α)) : α :=
  (out.map (fun p => p.2.width * p.2.height)).sum

theorem one_le_getSize (t : TreeNode) : 1 ≤ getSize t := le_max_left 1 _

theorem sumSizes_nil : sumSizes ([] : List TreeNode) = 0 := rfl

theorem sumSizes_cons (c : TreeNode) (cs : List TreeNode) :
    sumSizes (c :: cs) = getSize c + sumSizes cs := by
  simp [sumSizes]

theorem sumSizes_append (l1 l2 : List TreeNode) :
    sumSizes (l1 ++ l2) = sumSizes l1 + sumSizes l2 := by
  simp [sumSizes]

theorem sumSizes_reverse (l : List TreeNode) : sumSizes l.reverse = sumSizes l := by
  simp only [sumSizes, List.map_reverse, List.sum_reverse]

theorem length_le_sumSizes (l : List TreeNode) : l.length ≤ sumSizes l := by
  induction l with
  | nil => simp [sumSizes_nil]
  | cons c cs ih =>
    rw [sumSizes_cons, List.length_cons]
    have := one_le_getSize c
    omega

theorem sumSizes_pos (l : List TreeNode) (h : l ≠ []) : 0 < sumSizes l := by
  have h1 : 0 < l.length := List.length_pos.mpr h
  have := length_le_sumSizes l
  omega

theorem stripWider_map_fst (Btot ch H gx gw : α) :
    ∀ (cells : List TreeNode) (cy : α),
      (stripWider Btot ch H gx gw cy cells).map Prod.fst = cells := by
  intro cells
  induction cells with
  | nil => intro cy; simp [stripWider]
  | cons c cs ih => intro cy; simp only [stripWider, List.map_cons, ih]

theorem stripTaller_map_fst (Btot cw W gy gh : α) :
    ∀ (cells : List TreeNode) (cx : α),
      (stripTaller Btot cw W gy gh cx cells).map Prod.fst = cells := by
  intro cells
  induction cells with
  | nil => intro cx; simp [stripTaller]
  | cons c cs ih => intro cx; simp only [stripTaller, List.map_cons, ih]

theorem stripWider_area (Btot ch H gx gw : α) :
    ∀ (cells : List TreeNode) (cy : α),
      areaSum (stripWider Btot ch H gx gw cy cells) =
        gw * ((sumSizes cells : α) / Btot * ch / H) := by
  intro cells
  induction cells with
  | nil => intro cy; simp [stripWider, areaSum, sumSizes_nil]
  | cons c cs ih =>
    intro cy
    simp only [stripWider, areaSum, List.map_cons, List.sum_cons]
    have h2 := ih (cy + (getSize c : α) / Btot * ch / H)
    rw [areaSum] at h2
    rw [h2, sumSizes_cons]
    push_cast
    ring

theorem stripTaller_area (Btot cw W gy gh : α) :
    ∀ (cells : List TreeNode) (cx : α),
      areaSum (stripTaller Btot cw W gy gh cx cells) =
        ((sumSizes cells : α) / Btot * cw / W) * gh := by
  intro cells
  induction cells with
  | nil => intro cx; simp [stripTaller, areaSum, sumSizes_nil]
  | cons c cs ih =>
    intro cx
    simp only [stripTaller, areaSum, List.map_cons, List.sum_cons]
    have h2 := ih (cx + (getSize c : α) / Btot * cw / W)
    rw [areaSum] at h2
    rw [h2, sumSizes_cons]
    push_cast
    ring

theorem stripWider_bounds (Btot ch H gx gw : α) (hB : 0 < Btot) (hch : 0 ≤ ch) (hH : 0 < H)
    (hgx : 0 ≤ gx) (hgw : 0 ≤ gw) (hxw : gx + gw ≤ 1) :
    ∀ (cells : List TreeNode) (cy : α), 0 ≤ cy →
      cy + (sumSizes cells : α) / Btot * ch / H ≤ 1 →
      ∀ p ∈ stripWider Btot ch H gx gw cy cells, ratioWithin p.2 := by
  intro cells
  induction cells with
  | nil => intro cy _ _ p hp; simp [stripWider] at hp
  | cons c cs ih =>
    intro cy hcy hub p hp
    have hgh0 : (0 : α) ≤ (getSize c : α) / Btot * ch / H := by positivity
    have hmono : (getSize c : α) / Btot * ch / H ≤ (sumSizes (c :: cs) : α) / Btot * ch / H := by
      gcongr
      · exact_mod_cast (sumSizes_cons c cs) ▸ Nat.le_add_right (getSize c) (sumSizes cs)
    have htail0 : (0 : α) ≤ (sumSizes cs : α) / Btot * ch / H := by positivity
    have hsum : (sumSizes (c :: cs) : α) = (getSize c : α) + (sumSizes cs : α) := by
      rw [sumSizes_cons]; push_cast; ring
    simp only [stripWider, List.mem_cons] at hp
    rcases hp with hp | hp
    · subst hp
      refine ⟨hgx, hcy, hgw, hgh0, hxw, ?_⟩
      calc cy + (getSize c : α) / Btot * ch / H
          ≤ cy + (sumSizes (c :: cs) : α) / Btot * ch / H := by linarith
        _ ≤ 1 := hub
    · refine ih (cy + (getSize c : α) / Btot * ch / H) (by linarith) ?_ p hp
      have : cy + (getSize c : α) / Btot * ch / H + (sumSizes cs : α) / Btot * ch / H
          = cy + (sumSizes (c :: cs) : α) / Btot * ch / H := by
        rw [hsum]; ring
      linarith [hub, this.le, this.ge]

theorem stripTaller_bounds (Btot cw W gy gh : α) (hB : 0 < Btot) (hcw : 0 ≤ cw) (hW : 0 < W)
    (hgy : 0 ≤ gy) (hgh : 0 ≤ gh) (hyh : gy + gh ≤ 1) :
    ∀ (cells : List TreeNode) (cx : α), 0 ≤ cx →
      cx + (sumSizes cells : α) / Btot * cw / W ≤ 1 →
      ∀ p ∈ stripTaller Btot cw W gy gh cx cells, ratioWithin p.2 := by
  intro cells
  induction cells with
  | nil => intro cx _ _ p hp; simp [stripTaller] at hp
  | cons c cs ih =>
    intro cx hcx hub p hp
    have hgw0 : (0 : α) ≤ (getSize c : α) / Btot * cw / W := by positivity
    have hmono : (getSize c : α) / Btot * cw / W ≤ (sumSizes (c :: cs) : α) / Btot * cw / W := by
      gcongr
      · exact_mod_cast (sumSizes_cons c cs) ▸ Nat.le_add_right (getSize c) (sumSizes cs)
    have htail0 : (0 : α) ≤ (sumSizes cs : α) / Btot * cw / W := by positivity
    have hsum : (sumSizes (c :: cs) : α) = (getSize c : α) + (sumSizes cs : α) := by
      rw [sumSizes_cons]; push_cast; ring
    simp only [stripTaller, List.mem_cons] at hp
    rcases hp with hp | hp
    · subst hp
      refine ⟨hcx, hgy, hgw0, hgh, ?_, hyh⟩
      calc cx + (getSize c : α) / Btot * cw / W
          ≤ cx + (sumSizes (c :: cs) : α) / Btot * cw / W := by linarith
        _ ≤ 1 := hub
    · refine ih (cx + (getSize c : α) / Btot * cw / W) (by linarith) ?_ p hp
      have : cx + (getSize c : α) / Btot * cw / W + (sumSizes cs : α) / Btot * cw / W
          = cx + (sumSizes (c :: cs) : α) / Btot * cw / W := by
        rw [hsum]; ring
      linarith [hub, this.le, this.ge]

theorem processStrip_spec (W H gx gy cw ch L : α) (hW : 0 < W) (hH : 0 < H)
    (hgx : 0 ≤ gx) (hgy : 0 ≤ gy) (hcw : 0 < cw) (hch : 0 < ch)
    (hx1 : gx + cw / W ≤ 1) (hy1 : gy + ch / H ≤ 1)
    (hL : L = if ch < cw then ch else cw)
    (buf2 : List TreeNode) (hbuf : buf2 ≠ [])
    (hle : (sumSizes buf2 : α) ≤ cw * ch) :
    (processStrip W H gx gy cw ch L buf2).1.map Prod.fst = buf2.reverse ∧
    (∀ p ∈ (processStrip W H gx gy cw ch L buf2).1, ratioWithin p.2) ∧
    areaSum (processStrip W H gx gy cw ch L buf2).1 = (sumSizes buf2 : α) / (W * H) ∧
    0 ≤ (processStrip W H gx gy cw ch L buf2).2.1 ∧
    0 ≤ (processStrip W H gx gy cw ch L buf2).2.2.1 ∧
    0 ≤ (processStrip W H gx gy cw ch L buf2).2.2.2.1 ∧
    0 ≤ (processStrip W H gx gy cw ch L buf2).2.2.2.2 ∧
    (processStrip W H gx gy cw ch L buf2).2.1 +
      (processStrip W H gx gy cw ch L buf2).2.2.2.1 / W ≤ 1 ∧
    (processStrip W H gx gy cw ch L buf2).2.2.1 +
      (processStrip W H gx gy cw ch L buf2).2.2.2.2 / H ≤ 1 ∧
    (processStrip W H gx gy cw ch L buf2).2.2.2.1 *
      (processStrip W H gx gy cw ch L buf2).2.2.2.2 = cw * ch - (sumSizes buf2 : α) := by
  have hBpos : (0 : α) < (sumSizes buf2 : α) := by
    exact_mod_cast sumSizes_pos buf2 hbuf
  set Btot : α := (sumSizes buf2 : α) with hBtot
  have hrev : (sumSizes buf2.reverse : α) = Btot := by
    rw [hBtot]; exact_mod_cast congrArg Nat.cast (sumSizes_reverse buf2)
  by_cases hcc : ch < cw
  · -- is_wider: the strip is vertical, thickness Btot / ch along the x axis
    have hLch : L = ch := by rw [hL, if_pos hcc]
    have hP0 : (0 : α) ≤ Btot / ch := by positivity
    have hPle : Btot / ch ≤ cw := by
      rw [div_le_iff hch]
      linarith
    have hgw0 : (0 : α) ≤ Btot / ch / W := by positivity
    have hgwle : Btot / ch / W ≤ cw / W := by gcongr
    simp only [processStrip, hLch, if_pos hcc]
    refine ⟨?_, ?_, ?_, ?_, hgy, ?_, le_of_lt hch, ?_, hy1, ?_⟩
    · rw [← hBtot, stripWider_map_fst]
    · intro p hp
      refine stripWider_bounds Btot ch H gx (Btot / ch / W) hBpos (le_of_lt hch) hH hgx hgw0
        (by linarith) buf2.reverse gy hgy ?_ p hp
      rw [hrev, div_self (ne_of_gt hBpos), one_mul]
      exact hy1
    · rw [← hBtot, stripWider_area, hrev, div_self (ne_of_gt hBpos), one_mul]
      field_simp
      ring
    · linarith
    · linarith
    · have : Btot / ch / W + (cw - Btot / ch) / W = cw / W := by
        field_simp
        ring
      linarith
    · field_simp
  · -- taller: the strip is horizontal, thickness Btot / cw along the y axis
    have hLcw : L = cw := by rw [hL, if_neg hcc]
    have hP0 : (0 : α) ≤ Btot / cw := by positivity
    have hPle : Btot / cw ≤ ch := by
      rw [div_le_iff hcw]
      linarith
    have hgh0 : (0 : α) ≤ Btot / cw / H := by positivity
    have hghle : Btot / cw / H ≤ ch / H := by gcongr
    simp only [processStrip, hLcw, if_neg hcc]
    refine ⟨?_, ?_, ?_, hgx, ?_, le_of_lt hcw, ?_, hx1, ?_, ?_⟩
    · rw [← hBtot, stripTaller_map_fst]
    · intro p hp
      refine stripTaller_bounds Btot cw W gy (Btot / cw / H) hBpos (le_of_lt hcw) hW hgy hgh0
        (by linarith) buf2.reverse gx hgx ?_ p hp
      rw [hrev, div_self (ne_of_gt hBpos), one_mul]
      exact hx1
    · rw [← hBtot, stripTaller_area, hrev, div_self (ne_of_gt hBpos), one_mul]
      field_simp
      ring
    · linarith
    · linarith
    · have : Btot / cw / H + (ch - Btot / cw) / H = ch / H := by
        field_simp
        ring
      linarith
    · field_simp
      ring

theorem squarifyLoop_nil (W H gx gy cw ch : α) :
    squarifyLoop W H [] gx gy cw ch = ([], false) := by
  rw [squarifyLoop.eq_def]

theorem areaSum_append (l1 l2 : List (TreeNode × PositionRatio α)) :
    areaSum (l1 ++ l2) = areaSum l1 + areaSum l2 := by
  simp [areaSum]

theorem squarifyLoop_invariant (W H : α) (hW : 0 < W) (hH : 0 < H) :
    ∀ (wl : List TreeNode) (gx gy cw ch : α),
      0 ≤ gx → 0 ≤ gy → 0 ≤ cw → 0 ≤ ch →
      gx + cw / W ≤ 1 → gy + ch / H ≤ 1 →
      cw * ch = (sumSizes wl : α) →
      (squarifyLoop W H wl gx gy cw ch).2 = false ∧
      (squarifyLoop W H wl gx gy cw ch).1.map Prod.fst = wl ∧
      (∀ p ∈ (squarifyLoop W H wl gx gy cw ch).1, ratioWithin p.2) ∧
      areaSum (squarifyLoop W H wl gx gy cw ch).1 = (sumSizes wl : α) / (W * H) := by
  intro wl
  generalize hn : wl.length = n
  induction n using Nat.strong_induction_on generalizing wl with
  | _ n ih =>
    intro gx gy cw ch hgx hgy hcw hch hx1 hy1 hprod
    cases wl with
    | nil =>
      rw [squarifyLoop_nil]
      exact ⟨rfl, rfl, by simp, by simp [areaSum, sumSizes_nil]⟩
    | cons w0 wl' =>
      have hwlne : (w0 :: wl' : List TreeNode) ≠ [] := by simp
      have hSpos : (0 : α) < (sumSizes (w0 :: wl') : α) := by
        exact_mod_cast sumSizes_pos _ hwlne
      have hcwne : cw ≠ 0 := by
        intro h0
        rw [h0, zero_mul] at hprod
        linarith
      have hchne : ch ≠ 0 := by
        intro h0
        rw [h0, mul_zero] at hprod
        linarith
      have hcw0 : 0 < cw := lt_of_le_of_ne hcw (Ne.symm hcwne)
      have hch0 : 0 < ch := lt_of_le_of_ne hch (Ne.symm hchne)
      set L : α := if ch < cw then ch else cw with hL
      have hLpos : 0 < L := by
        rw [hL]
        split_ifs
        · exact hch0
        · exact hcw0
      have main : ∀ (buf2 rest2 : List TreeNode), buf2 ≠ [] →
          buf2.reverse ++ rest2 = w0 :: wl' → rest2.length < n →
          ((processStrip W H gx gy cw ch L buf2).1 ++
              (squarifyLoop W H rest2 (processStrip W H gx gy cw ch L buf2).2.1
                (processStrip W H gx gy cw ch L buf2).2.2.1
                (processStrip W H gx gy cw ch L buf2).2.2.2.1
                (processStrip W H gx gy cw ch L buf2).2.2.2.2).1,
            (squarifyLoop W H rest2 (processStrip W H gx gy cw ch L buf2).2.1
                (processStrip W H gx gy cw ch L buf2).2.2.1
                (processStrip W H gx gy cw ch L buf2).2.2.2.1
                (processStrip W H gx gy cw ch L buf2).2.2.2.2).2).2 = false ∧
          (((processStrip W H gx gy cw ch L buf2).1 ++
              (squarifyLoop W H rest2 (processStrip W H gx gy cw ch L buf2).2.1
                (processStrip W H gx gy cw ch L buf2).2.2.1
                (processStrip W H gx gy cw ch L buf2).2.2.2.1
                (processStrip W H gx gy cw ch L buf2).2.2.2.2).1).map Prod.fst = w0 :: wl') ∧
          (∀ p ∈ (processStrip W H gx gy cw ch L buf2).1 ++
              (squarifyLoop W H rest2 (processStrip W H gx gy cw ch L buf2).2.1
                (processStrip W H gx gy cw ch L buf2).2.2.1
                (processStrip W H gx gy cw ch L buf2).2.2.2.1
                (processStrip W H gx gy cw ch L buf2).2.2.2.2).1, ratioWithin p.2) ∧
          areaSum ((processStrip W H gx gy cw ch L buf2).1 ++
              (squarifyLoop W H rest2 (processStrip W H gx gy cw ch L buf2).2.1
                (processStrip W H gx gy cw ch L buf2).2.2.1
                (processStrip W H gx gy cw ch L buf2).2.2.2.1
                (processStrip W H gx gy cw ch L buf2).2.2.2.2).1) =
            (sumSizes (w0 :: wl') : α) / (W * H) := by
        intro buf2 rest2 hb2 hcat hlt
        have hsum2 : sumSizes buf2 + sumSizes rest2 = sumSizes (w0 :: wl') := by
          rw [← hcat, sumSizes_append, sumSizes_reverse]
        have hle2 : (sumSizes buf2 : α) ≤ cw * ch := by
          rw [hprod]
          exact_mod_cast Nat.le.intro hsum2
        obtain ⟨psfst, psmem, psarea, psgx, psgy, pscw, psch, psx1, psy1, psprod⟩ :=
          processStrip_spec W H gx gy cw ch L hW hH hgx hgy hcw0 hch0 hx1 hy1 hL buf2 hb2 hle2
        have hprodR : (processStrip W H gx gy cw ch L buf2).2.2.2.1 *
            (processStrip W H gx gy cw ch L buf2).2.2.2.2 = (sumSizes rest2 : α) := by
          rw [psprod, hprod]
          have : (sumSizes (w0 :: wl') : α) = (sumSizes buf2 : α) + (sumSizes rest2 : α) := by
            exact_mod_cast congrArg Nat.cast hsum2.symm
          rw [this]
          ring
        obtain ⟨ihflag, ihfst, ihmem, iharea⟩ := ih rest2.length hlt rest2 rfl
          (processStrip W H gx gy cw ch L buf2).2.1
          (processStrip W H gx gy cw ch L buf2).2.2.1
          (processStrip W H gx gy cw ch L buf2).2.2.2.1
          (processStrip W H gx gy cw ch L buf2).2.2.2.2
          psgx psgy pscw psch psx1 psy1 hprodR
        refine ⟨ihflag, ?_, ?_, ?_⟩
        · rw [List.map_append, psfst, ihfst, hcat]
        · intro p hp
          rcases List.mem_append.mp hp with hp | hp
          · exact psmem p hp
          · exact ihmem p hp
        · rw [areaSum_append, psarea, iharea]
          rw [div_add_div_same]
          congr 1
          exact_mod_cast congrArg Nat.cast hsum2
      rcases hfb : fillBuffer L 0 (w0 :: wl') [] with ⟨buf1, rest1, rho1⟩
      have hbne : buf1 ≠ [] := by
        have h2 := fillBuffer_ne_nil L (w0 :: wl') 0 [] (Or.inr ⟨by norm_num, hwlne⟩)
        rw [hfb] at h2
        exact h2
      cases buf1 with
      | nil => exact absurd rfl hbne
      | cons b bs =>
        have hsplit := fillBuffer_split L (w0 :: wl') 0 []
        rw [hfb] at hsplit
        simp only [List.reverse_nil, List.nil_append, List.append_nil] at hsplit
        rw [hL] at hfb
        have hunf := squarifyLoop_cons_unfold W H gx gy cw ch w0 wl' b bs rest1 rho1 hfb
        rw [← hL] at hunf
        simp only [List.length_cons] at hn
        cases bs with
        | nil =>
          simp only [List.isEmpty_nil, ite_true] at hunf
          rw [hunf]
          have hsp2 : [b].reverse ++ rest1 = w0 :: wl' := hsplit
          have hlen : rest1.length < n := by
            have h3 := congrArg List.length hsp2
            simp at h3
            omega
          exact main [b] rest1 (by simp) hsp2 hlen
        | cons b2 bs' =>
          simp only [List.isEmpty_cons, Bool.false_eq_true, ite_false] at hunf
          rw [hunf]
          have hsp2 : (b2 :: bs').reverse ++ b :: rest1 = w0 :: wl' := by
            rw [← hsplit]
            simp
          have hlen : (b :: rest1).length < n := by
            have h3 := congrArg List.length hsp2
            simp at h3
            simp only [List.length_cons]
            omega
          exact main (b2 :: bs') (b :: rest1) (by simp) hsp2 hlen

theorem updateRatio_def (t : TreeNode) (w h : ℝ) :
    updateRatio t w h =
      squarifyLoop (adjustRectangleDimensions w h (sumSizes (sortedChildren t) : ℝ)).1
        (adjustRectangleDimensions w h (sumSizes (sortedChildren t) : ℝ)).2
        (sortedChildren t).reverse 0 0
        (adjustRectangleDimensions w h (sumSizes (sortedChildren t) : ℝ)).1
        (adjustRectangleDimensions w h (sumSizes (sortedChildren t) : ℝ)).2 := rfl

theorem adjust_fst (w h A : ℝ) :
    (adjustRectangleDimensions w h A).1 = Real.sqrt (A * (w / h)) := rfl

theorem adjust_snd (w h A : ℝ) :
    (adjustRectangleDimensions w h A).2 = Real.sqrt (A * (w / h)) / (w / h) := rfl

theorem sortedChildren_perm (t : TreeNode) : (sortedChildren t).Perm t.children :=
  List.mergeSort_perm t.children _

theorem updateRatio_spec (t : TreeNode) (w h : ℝ) (hw : 0 < w) (hh : 0 < h) :
    (updateRatio t w h).2 = false ∧
    (updateRatio t w h).1.map Prod.fst = (sortedChildren t).reverse ∧
    (∀ p ∈ (updateRatio t w h).1, ratioWithin p.2) ∧
    (t.children ≠ [] → areaSum (updateRatio t w h).1 = 1) := by
  by_cases hc : t.children = []
  · have hs : sortedChildren t = [] := by
      have hperm := sortedChildren_perm t
      rw [hc] at hperm
      exact List.perm_nil.mp hperm
    rw [updateRatio_def, hs]
    rw [List.reverse_nil, squarifyLoop_nil]
    exact ⟨rfl, by simp, by simp, fun hne => absurd hc hne⟩
  · have hsne : sortedChildren t ≠ [] := by
      intro hnil
      have hperm := sortedChildren_perm t
      rw [hnil] at hperm
      exact hc (List.perm_nil.mp hperm.symm)
    have hSpos : (0 : ℝ) < (sumSizes (sortedChildren t) : ℝ) := by
      exact_mod_cast sumSizes_pos _ hsne
    set S : ℝ := (sumSizes (sortedChildren t) : ℝ) with hS
    have hr : (0 : ℝ) < w / h := div_pos hw hh
    set W : ℝ := Real.sqrt (S * (w / h)) with hWdef
    have hWpos : 0 < W := by
      rw [hWdef]
      exact Real.sqrt_pos.mpr (by positivity)
    have hWW : W * W = S * (w / h) := Real.mul_self_sqrt (by positivity)
    set H : ℝ := W / (w / h) with hHdef
    have hHpos : 0 < H := div_pos hWpos hr
    have hWH : W * H = S := by
      rw [hHdef]
      calc W * (W / (w / h)) = W * W / (w / h) := (mul_div_assoc _ _ _).symm
        _ = S * (w / h) / (w / h) := by rw [hWW]
        _ = S := mul_div_cancel_right₀ S (ne_of_gt hr)
    have hprod : W * H = (sumSizes ((sortedChildren t).reverse) : ℝ) := by
      rw [hWH, hS]
      exact_mod_cast congrArg Nat.cast (sumSizes_reverse (sortedChildren t)).symm
    have hx1 : (0 : ℝ) + W / W ≤ 1 := by rw [div_self (ne_of_gt hWpos)]; norm_num
    have hy1 : (0 : ℝ) + H / H ≤ 1 := by rw [div_self (ne_of_gt hHpos)]; norm_num
    obtain ⟨hflag, hfst, hmem, harea⟩ := squarifyLoop_invariant W H hWpos hHpos
      ((sortedChildren t).reverse) 0 0 W H le_rfl le_rfl hWpos.le hHpos.le hx1 hy1 hprod
    have hupd : updateRatio t w h = squarifyLoop W H ((sortedChildren t).reverse) 0 0 W H := by
      rw [updateRatio_def, adjust_fst, adjust_snd, ← hS, ← hWdef, ← hHdef]
    rw [hupd]
    refine ⟨hflag, hfst, hmem, fun _ => ?_⟩
    rw [harea, ← hprod, hWH]
    exact div_self (ne_of_gt hSpos)

/-- Every assignment of the list places the cell inside the unit reference
frame: all four `PositionRatio` components in `[0, 1]`, and
`x + width ≤ 1`, `y + height ≤ 1`. -/
def ratiosWithinUnit (out : List (TreeNode × PositionRatio α)) : Prop :=
  ∀ p ∈ out, (0 ≤ p.2.x ∧ p.2.x ≤ 1) ∧ (0 ≤ p.2.y ∧ p.2.y ≤ 1) ∧
    (0 ≤ p.2.width ∧ p.2.width ≤ 1) ∧ (0 ≤ p.2.height ∧ p.2.height ≤ 1) ∧
    p.2.x + p.2.width ≤ 1 ∧ p.2.y + p.2.height ≤ 1

/-- Every child of `t` appears among the cells assigned a `PositionRatio`. -/
def allChildrenAssigned (t : TreeNode) (out : List (TreeNode × PositionRatio α)) : Prop :=
  ∀ c ∈ t.children, c ∈ out.map Prod.fst

/-- Claim C4: after `update_ratio` runs on any node (with positive reference
dimensions), every child's assigned `PositionRatio` has `x`, `y`, `width`,
`height` each in `[0, 1]`, and `x + width ≤ 1`, `y + height ≤ 1`.  The model
computes the source's float arithmetic exactly over `ℝ`, so the bounds hold
exactly — the claim's floating-point tolerance `ε` is not needed (`ε = 0`). -/
theorem c4_ratios_in_unit_frame (t : TreeNode) (w h : ℝ) (hw : 0 < w) (hh : 0 < h) :
    ratiosWithinUnit (updateRatio t w h).1 := by
  intro p hp
  obtain ⟨-, -, hmem, -⟩ := updateRatio_spec t w h hw hh
  obtain ⟨h1, h2, h3, h4, h5, h6⟩ := hmem p hp
  exact ⟨⟨h1, by linarith⟩, ⟨h2, by linarith⟩, ⟨h3, by linarith⟩, ⟨h4, by linarith⟩, h5, h6⟩

/-- Witness for C4 at a concrete three-child node and the initial 1280×720
screen. -/
theorem c4_ratios_in_unit_frame_witness :
    (0 : ℝ) < 1280 ∧ (0 : ℝ) < 720 ∧
    ratiosWithinUnit (updateRatio
      (.node [] [.node ['A'] [], .node ['B'] [.node ['C'] []], .node ['D'] []])
      1280 720).1 :=
  ⟨by norm_num, by norm_num,
    c4_ratios_in_unit_frame
      (.node [] [.node ['A'] [], .node ['B'] [.node ['C'] []], .node ['D'] []])
      1280 720 (by norm_num) (by norm_num)⟩

/-- Claim C5: after `update_ratio` runs on any node with at least one child
(and positive reference dimensions), the children's assigned
`PositionRatio.width * PositionRatio.height` values sum to exactly `1` — the
full unit area allotted to the parent.  In the exact-real model the claim's
floating-point tolerance is not needed (`ε = 0`). -/
theorem c5_area_conservation (t : TreeNode) (w h : ℝ) (hw : 0 < w) (hh : 0 < h)
    (hc : t.children ≠ []) : areaSum (updateRatio t w h).1 = 1 :=
  (updateRatio_spec t w h hw hh).2.2.2 hc

/-- Witness for C5 at a concrete two-child node. -/
theorem c5_area_conservation_witness :
    (0 : ℝ) < 1280 ∧ (0 : ℝ) < 720 ∧
    areaSum (updateRatio (.node [] [.node ['A'] [], .node ['B'] []]) 1280 720).1 = 1 :=
  ⟨by norm_num, by norm_num,
    c5_area_conservation (.node [] [.node ['A'] [], .node ['B'] []]) 1280 720
      (by norm_num) (by norm_num) (List.cons_ne_nil _ _)⟩

/-- Claim C10 (implicit): the `[WARNING] Empty partition buffer` branch of
`update_ratio` is unreachable — the aspect accumulator starts at `0 < 2`, so
with a non-empty worklist the inner loop always places at least one cell in
the partition buffer; the warning flag is never set and every child of the
processed node is assigned a `PositionRatio`. -/
theorem c10_empty_buffer_unreachable (t : TreeNode) (w h : ℝ) (hw : 0 < w) (hh : 0 < h) :
    (updateRatio t w h).2 = false ∧ allChildrenAssigned t (updateRatio t w h).1 := by
  obtain ⟨hflag, hfst, -, -⟩ := updateRatio_spec t w h hw hh
  refine ⟨hflag, fun c hc => ?_⟩
  rw [hfst, List.mem_reverse, sortedChildren]
  exact List.mem_mergeSort.mpr hc

/-- Witness for C10 at a concrete three-child node. -/
theorem c10_empty_buffer_unreachable_witness :
    (updateRatio (.node [] [.node ['A'] [], .node ['B'] [], .node ['C'] []]) 1280 720).2
      = false ∧
    allChildrenAssigned (.node [] [.node ['A'] [], .node ['B'] [], .node ['C'] []])
      (updateRatio (.node [] [.node ['A'] [], .node ['B'] [], .node ['C'] []]) 1280 720).1 :=
  c10_empty_buffer_unreachable (.node [] [.node ['A'] [], .node ['B'] [], .node ['C'] []])
    1280 720 (by norm_num) (by norm_num)

/-- Claim C3: running `update_ratio` on a node with exactly one child (with
positive reference dimensions) assigns that child the `PositionRatio`
`(0, 0, 1, 1)` — the entire reference rectangle. -/
theorem c3_single_child_full_rectangle (t c : TreeNode) (w h : ℝ) (hc : t.children = [c])
    (hw : 0 < w) (hh : 0 < h) :
    (updateRatio t w h).1 = [(c, ⟨0, 0, 1, 1⟩)] := by
  have hs : sortedChildren t = [c] := by
    have hperm := sortedChildren_perm t
    rw [hc] at hperm
    exact List.perm_singleton.mp hperm
  have hszN : sumSizes [c] = getSize c := by simp [sumSizes]
  have hszpos : (0 : ℝ) < (sumSizes [c] : ℝ) := by
    exact_mod_cast sumSizes_pos [c] (by simp)
  set sz : ℝ := (sumSizes [c] : ℝ) with hsz
  have hr : (0 : ℝ) < w / h := div_pos hw hh
  set W : ℝ := Real.sqrt (sz * (w / h)) with hWdef
  have hWpos : 0 < W := by
    rw [hWdef]
    exact Real.sqrt_pos.mpr (by positivity)
  have hWW : W * W = sz * (w / h) := Real.mul_self_sqrt (by positivity)
  set H : ℝ := W / (w / h) with hHdef
  have hHpos : 0 < H := div_pos hWpos hr
  have hWH : W * H = sz := by
    rw [hHdef]
    calc W * (W / (w / h)) = W * W / (w / h) := (mul_div_assoc _ _ _).symm
      _ = sz * (w / h) / (w / h) := by rw [hWW]
      _ = sz := mul_div_cancel_right₀ sz (ne_of_gt hr)
  have hupd : updateRatio t w h = squarifyLoop W H [c] 0 0 W H := by
    rw [updateRatio_def, hs, adjust_fst, adjust_snd, ← hsz, ← hWdef, ← hHdef,
      List.reverse_singleton]
  set L : ℝ := if H < W then H else W with hL
  have hLpos : 0 < L := by
    rw [hL]
    split_ifs
    · exact hHpos
    · exact hWpos
  have hfb : fillBuffer L 0 [c] [] = ([c], [],
      (((sumSizes [c] : ℝ)) / L) / (L * (getSize c : ℝ) / ((sumSizes [c] : ℝ)))) := by
    rw [fillBuffer_cons L 0 c [] [] (by norm_num)]
    by_cases hq : (((sumSizes (c :: []) : ℝ)) / L) /
        (L * (getSize c : ℝ) / ((sumSizes (c :: []) : ℝ))) < 2
    · rw [fillBuffer_nil L _ [c] hq]
    · rw [fillBuffer_stop L _ [] [c] hq]
  rw [hL] at hfb
  have hunf := squarifyLoop_cons_unfold W H 0 0 W H c [] c [] []
    ((((sumSizes [c] : ℝ)) / L) / (L * (getSize c : ℝ) / ((sumSizes [c] : ℝ)))) hfb
  rw [← hL] at hunf
  simp only [List.isEmpty_nil, ite_true] at hunf
  rw [hupd, hunf]
  have hgspos : (0 : ℝ) < (getSize c : ℝ) := by
    have := one_le_getSize c
    exact_mod_cast lt_of_lt_of_le Nat.zero_lt_one this
  have hcast : ((sumSizes [c] : ℕ) : ℝ) = (getSize c : ℝ) := by
    exact_mod_cast congrArg Nat.cast hszN
  have hstrip : (processStrip W H 0 0 W H L [c]).1 = [(c, ⟨0, 0, 1, 1⟩)] := by
    by_cases hcc : H < W
    · have hLH : L = H := by rw [hL, if_pos hcc]
      simp only [processStrip, if_pos hcc, List.reverse_singleton, stripWider]
      rw [hLH]
      have h1 : (sumSizes [c] : ℝ) / H / W = 1 := by
        rw [div_div, ← hsz, mul_comm H W, hWH]
        exact div_self (ne_of_gt hszpos)
      have h2 : (getSize c : ℝ) / (sumSizes [c] : ℝ) * H / H = 1 := by
        rw [hcast, div_self (ne_of_gt hgspos), one_mul]
        exact div_self (ne_of_gt hHpos)
      rw [h1, h2]
    · have hLW : L = W := by rw [hL, if_neg hcc]
      simp only [processStrip, if_neg hcc, List.reverse_singleton, stripTaller]
      rw [hLW]
      have h1 : (getSize c : ℝ) / (sumSizes [c] : ℝ) * W / W = 1 := by
        rw [hcast, div_self (ne_of_gt hgspos), one_mul]
        exact div_self (ne_of_gt hWpos)
      have h2 : (sumSizes [c] : ℝ) / W / H = 1 := by
        rw [div_div, ← hsz, hWH]
        exact div_self (ne_of_gt hszpos)
      rw [h1, h2]
  rw [squarifyLoop_nil]
  simp [hstrip]

/-- Witness for C3: a node with the single child `A` and the initial
1280×720 screen. -/
theorem c3_single_child_full_rectangle_witness :
    (TreeNode.node [] [TreeNode.node ['A'] []]).children = [TreeNode.node ['A'] []] ∧
    (updateRatio (.node [] [.node ['A'] []]) 1280 720).1 =
      [(TreeNode.node ['A'] [], ⟨0, 0, 1, 1⟩)] :=
  ⟨rfl, c3_single_child_full_rectangle (.node [] [.node ['A'] []]) (.node ['A'] [])
    1280 720 rfl (by norm_num) (by norm_num)⟩

theorem fillBuffer_rest_ne_nil (L : α) :
    ∀ (wl : List TreeNode) (rho : α) (buf : List TreeNode),
      (fillBuffer L rho wl buf).2.1 ≠ [] → 2 ≤ (fillBuffer L rho wl buf).2.2 := by
  intro wl
  induction wl with
  | nil =>
    intro rho buf h
    by_cases hr : rho < 2
    · rw [fillBuffer_nil _ _ _ hr] at h
      exact absurd rfl h
    · rw [fillBuffer_stop _ _ _ _ hr] at h
      exact absurd rfl h
  | cons c rest ih =>
    intro rho buf h
    by_cases hr : rho < 2
    · rw [fillBuffer_cons _ _ _ _ _ hr] at h ⊢
      exact ih _ _ h
    · rw [fillBuffer_stop _ _ _ _ hr] at h ⊢
      exact not_lt.mp hr

theorem fillBuffer_exhaust_ge (L : α) (hL : 0 < L) :
    ∀ (wl : List TreeNode) (rho : α) (buf : List TreeNode),
      List.Pairwise (fun a b => getSize b ≤ getSize a) wl →
      (∀ x ∈ buf, ∀ w2 ∈ wl, getSize w2 ≤ getSize x) →
      (∀ (b : TreeNode) (bs : List TreeNode), buf = b :: bs →
        rho = ((sumSizes buf : α) / L) / (L * (getSize b : α) / (sumSizes buf : α)) ∧
        ∀ x ∈ bs, getSize b ≤ getSize x) →
      L * L ≤ ((sumSizes buf + sumSizes wl : ℕ) : α) →
      (fillBuffer L rho wl buf).2.1 = [] →
      1 < (fillBuffer L rho wl buf).1.length →
      2 ≤ (fillBuffer L rho wl buf).2.2 := by
  intro wl
  induction wl with
  | nil =>
    intro rho buf hsorted hcross hform hsq hrest hlen
    have hgoal : 1 < buf.length → 2 ≤ rho := by
      intro hlen2
      match buf, hlen2 with
      | b :: b2 :: bs', _ =>
        obtain ⟨hrho, hmin⟩ := hform b (b2 :: bs') rfl
        have hb1 : 1 ≤ getSize b := one_le_getSize b
        have hbb2 : getSize b ≤ getSize b2 := hmin b2 (by simp)
        have hB2s : 2 * (getSize b : α) ≤ (sumSizes (b :: b2 :: bs') : α) := by
          have hN : 2 * getSize b ≤ sumSizes (b :: b2 :: bs') := by
            rw [sumSizes_cons, sumSizes_cons]
            omega
          exact_mod_cast hN
        have hLB : L * L ≤ (sumSizes (b :: b2 :: bs') : α) := by
          have := hsq
          rw [sumSizes_nil, Nat.add_zero] at this
          exact this
        have hBpos : (0 : α) < (sumSizes (b :: b2 :: bs') : α) := by
          exact_mod_cast sumSizes_pos _ (by simp)
        have hspos : (0 : α) < (getSize b : α) := by exact_mod_cast hb1
        rw [hrho]
        set B : α := (sumSizes (b :: b2 :: bs') : α) with hBdef
        set s : α := (getSize b : α) with hsdef
        have hden : 0 < L * s / B := by positivity
        rw [le_div_iff hden]
        have hrw : 2 * (L * s / B) = 2 * (L * s) / B := by ring
        rw [hrw, div_le_div_iff hBpos hL]
        have hmm := mul_le_mul hB2s hLB (by positivity) hBpos.le
        calc 2 * (L * s) * L = 2 * s * (L * L) := by ring
          _ ≤ B * B := hmm
    by_cases hr : rho < 2
    · rw [fillBuffer_nil _ _ _ hr] at hlen ⊢
      exact hgoal hlen
    · rw [fillBuffer_stop _ _ _ _ hr] at hlen ⊢
      exact hgoal hlen
  | cons c rest ih =>
    intro rho buf hsorted hcross hform hsq hrest hlen
    by_cases hr : rho < 2
    · rw [fillBuffer_cons _ _ _ _ _ hr] at hrest hlen ⊢
      refine ih _ (c :: buf) ((List.pairwise_cons.mp hsorted).2) ?_ ?_ ?_ hrest hlen
      · intro x hx w2 hw2
        rcases List.mem_cons.mp hx with hx | hx
        · subst hx
          exact (List.pairwise_cons.mp hsorted).1 w2 hw2
        · exact hcross x hx w2 (List.mem_cons_of_mem c hw2)
      · intro b bs hb
        injection hb with hb1 hb2
        subst hb1
        subst hb2
        refine ⟨rfl, ?_⟩
        intro x hx
        exact hcross x hx c (by simp)
      · have hN : sumSizes (c :: buf) + sumSizes rest = sumSizes buf + sumSizes (c :: rest) := by
          rw [sumSizes_cons, sumSizes_cons]
          omega
        rw [hN]
        exact hsq
    · rw [fillBuffer_stop _ _ _ _ hr] at hrest
      exact absurd hrest (by simp)

/-- Claim C1: inside the accumulation of `update_ratio`, the pop-back
`children_to_update.append(partition_buffer.pop())` fires exactly when the
finished buffer has more than one cell (the code's `len(partition_buffer) != 1`
test; the buffer is never empty), and that happens precisely when the last
addition made the tested worst-case aspect value reach or exceed the
threshold `2`.  The hypotheses record the state that holds whenever
`update_ratio` enters the inner loop: `L` is the shorter side of the current
rectangle, so `L * L ≤ current_width * current_height = sumSizes wl` (the
rescaled area equals the total size of the remaining cells — the invariant
established in `squarifyLoop_invariant`), and the worklist is read in
non-increasing `get_size` order (children are sorted ascending by
`get_children_count`, hence ascending in `get_size = max 1 get_children_count`,
and popped from the end; a popped-back cell returns to its former position).
In particular a cell whose addition keeps the tested value below `2` is never
pushed back: the loop either continues past it or, when the worklist is
exhausted, the buffer necessarily holds only that single cell. -/
theorem c1_pushback_iff_threshold (L : ℝ) (wl : List TreeNode) (hL : 0 < L)
    (hLsq : L * L ≤ (sumSizes wl : ℝ))
    (hsorted : List.Pairwise (fun a b => getSize b ≤ getSize a) wl) (hwl : wl ≠ []) :
    (fillBuffer L (0 : ℝ) wl []).1 ≠ [] ∧
    ((fillBuffer L (0 : ℝ) wl []).1.length ≠ 1 ↔
      2 ≤ (fillBuffer L (0 : ℝ) wl []).2.2 ∧ 1 < (fillBuffer L (0 : ℝ) wl []).1.length) := by
  have hne := fillBuffer_ne_nil L wl 0 [] (Or.inr ⟨by norm_num, hwl⟩)
  refine ⟨hne, ?_, ?_⟩
  · intro hne1
    have hpos : 0 < (fillBuffer L (0 : ℝ) wl []).1.length := List.length_pos.mpr hne
    have hlen : 1 < (fillBuffer L (0 : ℝ) wl []).1.length := by omega
    refine ⟨?_, hlen⟩
    cases hrest : (fillBuffer L (0 : ℝ) wl []).2.1 with
    | nil =>
      refine fillBuffer_exhaust_ge L hL wl 0 [] hsorted (by simp) (by simp) ?_ hrest hlen
      rw [sumSizes_nil, Nat.zero_add]
      exact hLsq
    | cons r rs =>
      exact fillBuffer_rest_ne_nil L wl 0 [] (by rw [hrest]; simp)
  · intro ⟨_, hlen⟩
    omega

/-- Witness for C1: two leaf cells and strip length `1`. -/
theorem c1_pushback_iff_threshold_witness :
    (fillBuffer (1 : ℝ) (0 : ℝ) [.node ['A'] [], .node ['B'] []] []).1 ≠ [] ∧
    ((fillBuffer (1 : ℝ) (0 : ℝ) [.node ['A'] [], .node ['B'] []] []).1.length ≠ 1 ↔
      2 ≤ (fillBuffer (1 : ℝ) (0 : ℝ) [.node ['A'] [], .node ['B'] []] []).2.2 ∧
      1 < (fillBuffer (1 : ℝ) (0 : ℝ) [.node ['A'] [], .node ['B'] []] []).1.length) := by
  have hsum : sumSizes [.node ['A'] [], .node ['B'] []] = 2 := by
    simp [sumSizes, getSize, getChildrenCount, sumChildrenCounts]
  refine c1_pushback_iff_threshold 1 [.node ['A'] [], .node ['B'] []] (by norm_num) ?_ ?_
    (by simp)
  · rw [hsum]
    norm_num
  · simp [List.pairwise_cons, getSize, getChildrenCount, sumChildrenCounts]
